import Mathlib

/-!
# Rotary encoder sampler (`encoder.h`)

A shallow embedding of the quadrature sampler of `encoder.h`: the two
interrupt-shared globals `state_ISR` and `count_ISR`, the Timer2 registers the
module writes, and the functions `startTimer2`, `stopTimer2`, `readEncoder`,
`beginEncoder`, `updateEncoders` and the `TIMER2_COMPA_vect` handler.

Machine integers are natural numbers and integers with explicit reduction:
`byte` values are reduced modulo `2^8` on assignment and `int8_t` values are
reduced into `-128..127` (what avr-gcc does on conversion to a signed type).
-/

namespace Encoder

/-! ## Machine integers -/

/-- Assignment to an Arduino `byte` (unsigned 8 bit): the value modulo `2^8`. -/
def byte (n : Nat) : Nat := n % 256

/-- Conversion to `int8_t`: the value reduced modulo `2^8` into `-128..127`. -/
def int8 (z : Int) : Int := (z + 128) % 256 - 128

/-! ## Pins -/

/-- Encoder pin A, `#define ENCODER_A 3`. -/
def ENCODER_A : Nat := 3

/-- Encoder pin B, `#define ENCODER_B 4`. -/
def ENCODER_B : Nat := 4

/-- Pin modes of the Arduino core. -/
inductive PinMode where
  | INPUT
  | OUTPUT
  | INPUT_PULLUP
  deriving DecidableEq, Repr

/-- The electrical levels of the two encoder pins at one instant
(`true` is HIGH, `false` is LOW). -/
structure Pins where
  A : Bool
  B : Bool
  deriving DecidableEq, Repr

/-- Arduino `digitalRead`: `HIGH` (1) or `LOW` (0) for the level of the pin;
pins other than the two encoder pins are not wired and read `LOW`. -/
def digitalRead (pins : Pins) (pin : Nat) : Nat :=
  if pin = ENCODER_A then (if pins.A then 1 else 0)
  else if pin = ENCODER_B then (if pins.B then 1 else 0)
  else 0

/-! ## State -/

/-- Bit positions of the Timer2 registers, declared by `<avr/io.h>`, which is
not part of the repository: they are a parameter of the model. -/
structure Timer2Bits where
  WGM22 : Nat
  CS22 : Nat
  CS20 : Nat
  WGM21 : Nat
  OCIE2A : Nat
  deriving DecidableEq, Repr

/-- The bit positions of the ATmega328P (the Arduino Uno), used for concrete
instances. -/
def atmega328p : Timer2Bits :=
  { WGM22 := 3, CS22 := 2, CS20 := 0, WGM21 := 1, OCIE2A := 1 }

/-- Everything the module reads or writes: its two globals, the Timer2
registers, the global interrupt enable (the I bit of SREG) and the modes of
the two encoder pins. -/
structure Machine where
  state_ISR : Nat
  count_ISR : Int
  TCCR2A : Nat
  TCCR2B : Nat
  OCR2A : Nat
  TIMSK2 : Nat
  SREG_I : Bool
  modeA : PinMode
  modeB : PinMode
  deriving DecidableEq, Repr

/-- State after reset: the globals are zero-initialised, the Timer2 registers
hold their reset value 0, interrupts are off and the pins are inputs. -/
def powerOn : Machine :=
  { state_ISR := 0, count_ISR := 0, TCCR2A := 0, TCCR2B := 0, OCR2A := 0,
    TIMSK2 := 0, SREG_I := false, modeA := .INPUT, modeB := .INPUT }

/-- Arduino `noInterrupts()`: clear the global interrupt enable. -/
def noInterrupts (m : Machine) : Machine := { m with SREG_I := false }

/-- Arduino `interrupts()`: set the global interrupt enable. -/
def interrupts (m : Machine) : Machine := { m with SREG_I := true }

/-- Arduino `pinMode` for the two encoder pins. -/
def pinMode (pin : Nat) (mode : PinMode) (m : Machine) : Machine :=
  if pin = ENCODER_A then { m with modeA := mode }
  else if pin = ENCODER_B then { m with modeB := mode }
  else m

/-! ## The functions of `encoder.h` -/

/-- `startTimer2`: Timer2 in CTC mode, compare value 124, compare-match
interrupt enabled. -/
def startTimer2 (io : Timer2Bits) (m : Machine) : Machine :=
  let m := noInterrupts m
  let m := { m with TCCR2B := byte ((1 <<< io.WGM22) ||| (1 <<< io.CS22) ||| (1 <<< io.CS20)) }
  let m := { m with TCCR2A := byte (1 <<< io.WGM21) }
  let m := { m with OCR2A := byte 124 }
  let m := { m with TIMSK2 := byte (1 <<< io.OCIE2A) }
  interrupts m

/-- `stopTimer2`: all Timer2 interrupt enables cleared. -/
def stopTimer2 (m : Machine) : Machine :=
  let m := noInterrupts m
  let m := { m with TIMSK2 := 0 }
  interrupts m

/-- `readEncoder`: shift the two pin levels into the 4-bit history and
classify the history; the returned pair is (result, machine after). -/
def readEncoder (pins : Pins) (m : Machine) : Int × Machine :=
  let result : Int := 0
  let state := m.state_ISR
  let state := byte ((state <<< 2) ||| (byte (digitalRead pins ENCODER_A) <<< 1)
    ||| byte (digitalRead pins ENCODER_B))
  let state := byte (state &&& 0xF)
  let result := if state = 0b0001 then -1 else if state = 0b0010 then 1 else result
  (result, { m with state_ISR := state })

/-- `beginEncoder`: pull-ups on, one sample whose result is dropped, timer
started. -/
def beginEncoder (io : Timer2Bits) (pins : Pins) (m : Machine) : Machine :=
  let m := pinMode ENCODER_A .INPUT_PULLUP m
  let m := pinMode ENCODER_B .INPUT_PULLUP m
  let m := (readEncoder pins m).2
  startTimer2 io m

/-- `updateEncoders`: `delta` is the previous content of `*delta`; the result
is (returned boolean, content of `*delta` afterwards, machine after). -/
def updateEncoders (m : Machine) (delta : Int) : Bool × Int × Machine :=
  if m.count_ISR ≠ 0 then
    let m := noInterrupts m
    let delta := m.count_ISR
    let m := { m with count_ISR := 0 }
    let m := interrupts m
    (true, delta, m)
  else
    let delta := 0
    (false, delta, m)

/-- `ISR(TIMER2_COMPA_vect)`: `count_ISR += readEncoder()`, the sum converted
back to `int8_t`. -/
def TIMER2_COMPA_vect (pins : Pins) (m : Machine) : Machine :=
  let r := readEncoder pins m
  { r.2 with count_ISR := int8 (r.2.count_ISR + r.1) }

/-! ## Derived notions used by the statements -/

/-- The 4-bit history the specification describes for old state `s` and pin
levels `a`, `b`: `((s << 2) | (a << 1) | b) & 0xF`. -/
def history (s : Nat) (a b : Bool) : Nat :=
  ((s <<< 2) ||| ((if a then 1 else 0) <<< 1) ||| (if b then 1 else 0)) &&& 0xF

/-- The current sample as a 2-bit number: pin A is bit 1, pin B is bit 0. -/
def sample (pins : Pins) : Nat :=
  2 * (if pins.A then 1 else 0) + (if pins.B then 1 else 0)

/-- Feed the samples to `readEncoder` one after another: the steps returned,
in order, and the machine afterwards. -/
def readMany : List Pins → Machine → List Int × Machine
  | [], m => ([], m)
  | p :: ps, m =>
    let r := readEncoder p m
    let rest := readMany ps r.2
    (r.1 :: rest.1, rest.2)

/-- Run the timer handler once for each sample, in order. -/
def ticks : List Pins → Machine → Machine
  | [], m => m
  | p :: ps, m => ticks ps (TIMER2_COMPA_vect p m)

/-- The samples 01, 11, 10, 00 (written AB) of the sequence 00→01→11→10→00. -/
def canonicalSeq : List Pins :=
  [⟨false, true⟩, ⟨true, true⟩, ⟨true, false⟩, ⟨false, false⟩]

/-- The samples 10, 11, 01, 00 (written AB) of the sequence 00→10→11→01→00. -/
def mirroredSeq : List Pins :=
  [⟨true, false⟩, ⟨true, true⟩, ⟨false, true⟩, ⟨false, false⟩]

/-- The compare-match interrupt enable: bit `OCIE2A` of `TIMSK2`. -/
def timerEnabled (io : Timer2Bits) (m : Machine) : Bool :=
  m.TIMSK2.testBit io.OCIE2A

/-- Whether a compare match is served in this state: interrupts globally
enabled and the compare-match interrupt enabled. -/
def fires (io : Timer2Bits) (m : Machine) : Bool :=
  m.SREG_I && timerEnabled io m

/-- One timer compare match with the pins at the given levels: the handler
runs only when the compare match is served. -/
def tick (io : Timer2Bits) (pins : Pins) (m : Machine) : Machine :=
  if fires io m then TIMER2_COMPA_vect pins m else m

/-- A sequence of compare matches, one for each pin-pair sample. -/
def tickMany (io : Timer2Bits) : List Pins → Machine → Machine
  | [], m => m
  | p :: ps, m => tickMany io ps (tick io p m)

/-- A state at the top of the accumulator range. -/
def atTop : Machine := { powerOn with count_ISR := 127 }

/-- The operations of the module, as a host program or the timer may invoke
them. -/
inductive Op where
  | readEncoder (pins : Pins)
  | isr (pins : Pins)
  | beginEncoder (pins : Pins)
  | updateEncoders (delta : Int)
  | startTimer2
  | stopTimer2
  deriving Repr

/-- The machine after one operation. -/
def Op.apply (io : Timer2Bits) : Op → Machine → Machine
  | .readEncoder pins, m => (Encoder.readEncoder pins m).2
  | .isr pins, m => TIMER2_COMPA_vect pins m
  | .beginEncoder pins, m => Encoder.beginEncoder io pins m
  | .updateEncoders delta, m => (Encoder.updateEncoders m delta).2.2
  | .startTimer2, m => Encoder.startTimer2 io m
  | .stopTimer2, m => Encoder.stopTimer2 m

/-- The machine after a sequence of operations. -/
def runOps (io : Timer2Bits) : List Op → Machine → Machine
  | [], m => m
  | op :: ops, m => runOps io ops (op.apply io m)

/-! ## Sequences of callbacks and drains -/

/-- What a run of the module lets one observe: the step `readEncoder`
returned in a callback, or the value a call of `updateEncoders` left in
`*delta`. -/
inductive Obs where
  | step (s : Int)
  | drained (d : Int)
  deriving DecidableEq, Repr

/-- The drained values of a log, in order. -/
def drainedOf : List Obs → List Int
  | [] => []
  | .step _ :: os => drainedOf os
  | .drained d :: os => d :: drainedOf os

/-- The steps of a log, in order. -/
def stepsOf : List Obs → List Int
  | [] => []
  | .step s :: os => s :: stepsOf os
  | .drained _ :: os => stepsOf os

/-- For each drain of a log, the sum of the steps logged since the drain
before it (`acc` is the sum of the steps that precede the log and follow the
last drain). -/
def sumsBetweenDrains : List Obs → Int → List Int
  | [], _ => []
  | .step s :: os, acc => sumsBetweenDrains os (acc + s)
  | .drained _ :: os, acc => acc :: sumsBetweenDrains os 0

/-- An atomic operation on the accumulator: one run of the timer handler with
the pins at the given levels, or one call of `updateEncoders`. -/
inductive Event where
  | callback (pins : Pins)
  | drain
  deriving DecidableEq, Repr

/-- Execute the events one after another; `delta` is the host variable the
drains write to. The result is the log and the machine afterwards. -/
def observe : List Event → Machine → Int → List Obs × Machine
  | [], m, _ => ([], m)
  | .callback pins :: es, m, delta =>
    let r := observe es (TIMER2_COMPA_vect pins m) delta
    (.step (readEncoder pins m).1 :: r.1, r.2)
  | .drain :: es, m, delta =>
    let u := updateEncoders m delta
    let r := observe es u.2.2 u.2.1
    (.drained u.2.1 :: r.1, r.2)

/-- No callback of the run overflows the accumulator: each sum
`count_ISR + step` lies within -128..127 before it is stored. -/
def staysInRange : List Event → Machine → Int → Bool
  | [], _, _ => true
  | .callback pins :: es, m, delta =>
    decide (-128 ≤ m.count_ISR + (readEncoder pins m).1) &&
    decide (m.count_ISR + (readEncoder pins m).1 ≤ 127) &&
    staysInRange es (TIMER2_COMPA_vect pins m) delta
  | .drain :: es, m, delta =>
    staysInRange es (updateEncoders m delta).2.2 (updateEncoders m delta).2.1

/-! ## Interleaving of the handler with `updateEncoders` -/

/-- Where the host program is inside `updateEncoders`, one point between each
two statements of its body. -/
inductive PC where
  -- not inside `updateEncoders`
  | idle
  -- the test `count_ISR != 0` has been evaluated to `nz`; no branch entered yet
  | tested (nz : Bool)
  -- after `noInterrupts()`
  | masked
  -- after `*delta = count_ISR`
  | copied
  -- after `count_ISR = 0`; `interrupts()` and `return true` remain
  | cleared
  deriving DecidableEq, Repr

/-- The machine together with the host's position in `updateEncoders` and the
host variable `*delta`. -/
structure Sys where
  m : Machine
  pc : PC
  delta : Int
  deriving DecidableEq, Repr

/-- One scheduling decision: a timer compare match with the pins at the given
levels, or the next statement of the host. -/
inductive Act where
  | irq (pins : Pins)
  | host
  deriving DecidableEq, Repr

/-- The next statement of the host: from `idle` it enters `updateEncoders` and
evaluates the test; the statements of the two branches follow one at a time.
The second component is the content of `*delta` when the call returns with
this statement. -/
def hostStep (s : Sys) : Sys × Option Int :=
  match s.pc with
  | .idle => ({ s with pc := .tested (decide (s.m.count_ISR ≠ 0)) }, none)
  | .tested true => ({ s with m := noInterrupts s.m, pc := .masked }, none)
  | .tested false => ({ s with delta := 0, pc := .idle }, some 0)
  | .masked => ({ s with delta := s.m.count_ISR, pc := .copied }, none)
  | .copied => ({ s with m := { s.m with count_ISR := 0 }, pc := .cleared }, none)
  | .cleared => ({ s with m := interrupts s.m, pc := .idle }, some s.delta)

/-- Execute a schedule: a compare match runs the handler when it is served and
is logged with the step `readEncoder` returned; a host statement that returns
from `updateEncoders` is logged with the content of `*delta`. -/
def interleave (io : Timer2Bits) : List Act → Sys → List Obs × Sys
  | [], s => ([], s)
  | .irq pins :: as, s =>
    if fires io s.m then
      let r := interleave io as { s with m := TIMER2_COMPA_vect pins s.m }
      (.step (readEncoder pins s.m).1 :: r.1, r.2)
    else interleave io as s
  | .host :: as, s =>
    let h := hostStep s
    let r := interleave io as h.1
    match h.2 with
    | some d => (.drained d :: r.1, r.2)
    | none => r

/-- No handler run of the schedule overflows the accumulator. -/
def scheduleInRange (io : Timer2Bits) : List Act → Sys → Bool
  | [], _ => true
  | .irq pins :: as, s =>
    if fires io s.m then
      decide (-128 ≤ s.m.count_ISR + (readEncoder pins s.m).1) &&
      decide (s.m.count_ISR + (readEncoder pins s.m).1 ≤ 127) &&
      scheduleInRange io as { s with m := TIMER2_COMPA_vect pins s.m }
    else scheduleInRange io as s
  | .host :: as, s => scheduleInRange io as (hostStep s).1

/-- The steps the host has not yet been handed: the accumulator, and between
`count_ISR = 0` and the return also the copy held in `*delta`. -/
def outstanding (s : Sys) : Int :=
  match s.pc with
  | .cleared => s.delta + s.m.count_ISR
  | _ => s.m.count_ISR

/-- What holds of the machine at each point of `updateEncoders`: inside the
critical section interrupts are off, after the copy `*delta` equals the
accumulator, after the reset the accumulator is 0. -/
def pcInv (s : Sys) : Prop :=
  match s.pc with
  | .idle => True
  | .tested _ => True
  | .masked => s.m.SREG_I = false
  | .copied => s.m.SREG_I = false ∧ s.delta = s.m.count_ISR
  | .cleared => s.m.SREG_I = false ∧ s.m.count_ISR = 0

/-- A machine on which the Timer2 of the ATmega328P has been started, with the
host outside `updateEncoders`. -/
def startedSys : Sys :=
  ⟨startTimer2 atmega328p powerOn, .idle, 0⟩

/-- A schedule in which compare matches fall between the test and
`noInterrupts()`, inside the critical section (not served), and between a
failed test and `*delta = 0`. -/
def preemptingSchedule : List Act :=
  [.irq ⟨true, false⟩, .host, .irq ⟨false, false⟩, .irq ⟨true, false⟩, .host,
   .irq ⟨false, false⟩, .host, .host, .host, .irq ⟨false, false⟩, .host,
   .irq ⟨true, false⟩, .host]

/-- The number of ticks of a sample sequence whose previous sample is 00 and
whose current sample is `cur` (samples as 2-bit numbers, pin A bit 1, pin B
bit 0); `prev` is the sample that precedes the first tick. -/
def countFrom00 (cur : Nat) : Nat → List Pins → Nat
  | _, [] => 0
  | prev, p :: ps =>
    (if prev = 0 ∧ sample p = cur then 1 else 0) + countFrom00 cur (sample p) ps

/-- The samples 01, 00, 01 (written AB): contact jitter between 00 and 01. -/
def jitterSeq : List Pins :=
  [⟨false, true⟩, ⟨false, false⟩, ⟨false, true⟩]

/-- A state at the bottom of the accumulator range. -/
def atBottom : Machine := { powerOn with count_ISR := -128 }

/-- The samples 10, 00 (written AB) repeated `n` times: from a previous sample
00 each pair makes one +1 step. -/
def turns : Nat → List Pins
  | 0 => []
  | n + 1 => ⟨true, false⟩ :: ⟨false, false⟩ :: turns n

/-- Modelled from the spec: the Timer2 hardware (the system clock, the
prescaler table and the compare-match period) is not in the repository. With a
16 MHz system clock and the prescaler of 128 that `CS22 | CS20` selects in CTC
mode, a compare value `ocr2a` gives `16000000 / (128 × (ocr2a + 1))` compare
matches per second. -/
def ticksPerSecond (ocr2a : Nat) : ℚ :=
  16000000 / (128 * ((ocr2a : ℚ) + 1))

/-! ## Arithmetic of the shift register -/

theorem shiftLeft_two_or (s c : Nat) (hc : c < 4) : ((s <<< 2) ||| c) = 4 * s + c := by
  have h := Nat.mul_add_lt_is_or (i := 2) (b := c) (by simpa using hc) s
  rw [Nat.shiftLeft_eq, Nat.mul_comm]
  simpa using h.symm

theorem and_0xF (x : Nat) : x &&& 0xF = x % 16 := by
  simpa using Nat.and_pow_two_sub_one_eq_mod x 4

theorem pair_bits (a b : Bool) :
    (((if a then 1 else 0 : Nat) <<< 1) ||| (if b then 1 else 0)) =
      2 * (if a then 1 else 0) + (if b then 1 else 0) := by
  cases a <;> cases b <;> rfl

theorem pair_bits_lt (a b : Bool) :
    2 * (if a then 1 else 0 : Nat) + (if b then 1 else 0) < 4 := by
  cases a <;> cases b <;> decide

theorem history_eq (s : Nat) (a b : Bool) :
    history s a b = (s % 4) * 4 + (2 * (if a then 1 else 0) + (if b then 1 else 0)) := by
  unfold history
  rw [Nat.or_assoc, and_0xF, pair_bits, shiftLeft_two_or _ _ (pair_bits_lt a b)]
  have := pair_bits_lt a b
  omega

theorem byte_level (c : Bool) : byte (if c then 1 else 0) = if c then 1 else 0 := by
  cases c <;> rfl

theorem readEncoder_state (pins : Pins) (m : Machine) :
    (readEncoder pins m).2.state_ISR = (m.state_ISR % 4) * 4 + sample pins := by
  obtain ⟨a, b⟩ := pins
  have hA : digitalRead ⟨a, b⟩ ENCODER_A = if a then 1 else 0 := by
    simp [digitalRead]
  have hB : digitalRead ⟨a, b⟩ ENCODER_B = if b then 1 else 0 := by
    simp [digitalRead, ENCODER_A, ENCODER_B]
  simp only [readEncoder, hA, hB, byte_level, sample]
  rw [Nat.or_assoc, pair_bits, shiftLeft_two_or _ _ (pair_bits_lt a b), and_0xF]
  have := pair_bits_lt a b
  simp only [byte]
  omega

theorem readEncoder_state_eq_history (pins : Pins) (m : Machine) :
    (readEncoder pins m).2.state_ISR = history m.state_ISR pins.A pins.B := by
  rw [readEncoder_state, history_eq, sample]

theorem readEncoder_result (pins : Pins) (m : Machine) :
    (readEncoder pins m).1 =
      if (readEncoder pins m).2.state_ISR = 1 then -1
      else if (readEncoder pins m).2.state_ISR = 2 then 1 else 0 := by
  simp only [readEncoder]

theorem sample_lt (pins : Pins) : sample pins < 4 := by
  obtain ⟨a, b⟩ := pins
  cases a <;> cases b <;> simp [sample]

theorem readEncoder_frame (pins : Pins) (m : Machine) :
    (readEncoder pins m).2 = { m with state_ISR := (readEncoder pins m).2.state_ISR } := by
  simp only [readEncoder]

/-! ## Classification of the sixteen histories -/

/-- C1: for every prior shift state and all pin levels, `readEncoder` returns
-1 exactly when the masked 4-bit history `((old << 2) | (A << 1) | B) & 0xF`
is `0001`, +1 exactly when it is `0010`, and 0 exactly for the other fourteen
values; each of the sixteen values `h` is produced (from old state `h / 4` and
pins `h / 2 % 2`, `h % 2`) with exactly that output. -/
theorem readEncoder_classifies (pins : Pins) (m : Machine) :
    ((readEncoder pins m).1 = -1 ↔ history m.state_ISR pins.A pins.B = 0b0001) ∧
    ((readEncoder pins m).1 = 1 ↔ history m.state_ISR pins.A pins.B = 0b0010) ∧
    ((readEncoder pins m).1 = 0 ↔
      (history m.state_ISR pins.A pins.B ≠ 0b0001 ∧
       history m.state_ISR pins.A pins.B ≠ 0b0010)) ∧
    history m.state_ISR pins.A pins.B < 16 ∧
    (∀ h : Fin 16,
      history (h.val / 4) (decide (h.val / 2 % 2 = 1)) (decide (h.val % 2 = 1)) = h.val ∧
      (readEncoder ⟨decide (h.val / 2 % 2 = 1), decide (h.val % 2 = 1)⟩
        { m with state_ISR := h.val / 4 }).1 =
        if h.val = 0b0001 then -1 else if h.val = 0b0010 then 1 else 0) := by
  rw [readEncoder_result, readEncoder_state_eq_history]
  refine ⟨?_, ?_, ?_, ?_, ?_⟩
  · split_ifs <;> simp_all
  · split_ifs <;> simp_all
  · split_ifs <;> simp_all
  · rw [history_eq]
    have := sample_lt pins
    simp only [sample] at this
    omega
  · intro h
    have h1 : history (h.val / 4) (decide (h.val / 2 % 2 = 1)) (decide (h.val % 2 = 1))
        = h.val := by
      fin_cases h <;> decide
    refine ⟨h1, ?_⟩
    rw [readEncoder_result, readEncoder_state_eq_history]
    dsimp only
    rw [h1]

/-! ## The timer handler -/

theorem isr_state (pins : Pins) (m : Machine) :
    (TIMER2_COMPA_vect pins m).state_ISR = (readEncoder pins m).2.state_ISR := rfl

theorem readEncoder_count (pins : Pins) (m : Machine) :
    (readEncoder pins m).2.count_ISR = m.count_ISR := rfl

theorem isr_count (pins : Pins) (m : Machine) :
    (TIMER2_COMPA_vect pins m).count_ISR = int8 (m.count_ISR + (readEncoder pins m).1) := rfl

/-! ## One detent -/

/-- C2 (as stated, refuted): from the power-on state, whose most recent sample
is 00, the samples 01, 11, 10, 00 give the steps -1, 0, 0, 0, whose sum is -1
and not +1, and the mirrored samples 10, 11, 01, 00 give +1, 0, 0, 0, whose
sum is +1 and not -1. -/
theorem canonical_sum_not_plus_one :
    powerOn.state_ISR % 4 = 0 ∧
    (readMany canonicalSeq powerOn).1 = [-1, 0, 0, 0] ∧
    (readMany canonicalSeq powerOn).1.sum ≠ 1 ∧
    (readMany mirroredSeq powerOn).1 = [1, 0, 0, 0] ∧
    (readMany mirroredSeq powerOn).1.sum ≠ -1 := by
  decide

/-- C2 (amended): from every shift state whose most recent sample is 00, the
samples 01, 11, 10, 00 yield steps whose sum is exactly -1 and the mirrored
samples 10, 11, 01, 00 yield steps whose sum is exactly +1; run through the
timer handler from an accumulator of 0 they leave -1 and +1 in it. -/
theorem detent_sums (m : Machine) (h : m.state_ISR % 4 = 0) :
    (readMany canonicalSeq m).1.sum = -1 ∧
    (readMany mirroredSeq m).1.sum = 1 ∧
    (ticks canonicalSeq { m with count_ISR := 0 }).count_ISR = -1 ∧
    (ticks mirroredSeq { m with count_ISR := 0 }).count_ISR = 1 := by
  refine ⟨?_, ?_, ?_, ?_⟩
  · simp [readMany, canonicalSeq, readEncoder_result, readEncoder_state, sample, h]
  · simp [readMany, mirroredSeq, readEncoder_result, readEncoder_state, sample, h]
  · simp [ticks, canonicalSeq, isr_count, isr_state, readEncoder_result, readEncoder_state,
      sample, h, int8]
  · simp [ticks, mirroredSeq, isr_count, isr_state, readEncoder_result, readEncoder_state,
      sample, h, int8]

theorem detent_sums_witness :
    ({ powerOn with state_ISR := 12 } : Machine).state_ISR % 4 = 0 ∧
    (readMany canonicalSeq { powerOn with state_ISR := 12 }).1.sum = -1 ∧
    (readMany mirroredSeq { powerOn with state_ISR := 12 }).1.sum = 1 ∧
    (ticks canonicalSeq { { powerOn with state_ISR := 12 } with count_ISR := 0 }).count_ISR
      = -1 ∧
    (ticks mirroredSeq { { powerOn with state_ISR := 12 } with count_ISR := 0 }).count_ISR
      = 1 :=
  ⟨by decide, detent_sums { powerOn with state_ISR := 12 } (by decide)⟩

/-! ## Draining the accumulator -/

/-- C3: with a nonzero accumulator `v`, `updateEncoders` returns true, writes
exactly `v` into `*delta` and leaves the accumulator at 0; a second call made
immediately afterwards returns false and writes 0 into `*delta`. -/
theorem updateEncoders_nonzero (m : Machine) (delta : Int) (h : m.count_ISR ≠ 0) :
    (updateEncoders m delta).1 = true ∧
    (updateEncoders m delta).2.1 = m.count_ISR ∧
    (updateEncoders m delta).2.2.count_ISR = 0 ∧
    (updateEncoders (updateEncoders m delta).2.2 (updateEncoders m delta).2.1).1 = false ∧
    (updateEncoders (updateEncoders m delta).2.2 (updateEncoders m delta).2.1).2.1 = 0 := by
  simp [updateEncoders, h, interrupts, noInterrupts]

theorem updateEncoders_nonzero_witness :
    ({ powerOn with count_ISR := -3 } : Machine).count_ISR ≠ 0 ∧
    (updateEncoders { powerOn with count_ISR := -3 } 5).1 = true ∧
    (updateEncoders { powerOn with count_ISR := -3 } 5).2.1 = -3 ∧
    (updateEncoders { powerOn with count_ISR := -3 } 5).2.2.count_ISR = 0 ∧
    (updateEncoders (updateEncoders { powerOn with count_ISR := -3 } 5).2.2
      (updateEncoders { powerOn with count_ISR := -3 } 5).2.1).1 = false ∧
    (updateEncoders (updateEncoders { powerOn with count_ISR := -3 } 5).2.2
      (updateEncoders { powerOn with count_ISR := -3 } 5).2.1).2.1 = 0 :=
  ⟨by decide, updateEncoders_nonzero { powerOn with count_ISR := -3 } 5 (by decide)⟩

/-- C4: with an accumulator of 0 and any previous content of `*delta`,
`updateEncoders` returns false, leaves 0 in `*delta`, and leaves the
accumulator (still 0), the shift state and the rest of the machine
unchanged. -/
theorem updateEncoders_zero (m : Machine) (delta : Int) (h : m.count_ISR = 0) :
    (updateEncoders m delta).1 = false ∧
    (updateEncoders m delta).2.1 = 0 ∧
    (updateEncoders m delta).2.2.count_ISR = 0 ∧
    (updateEncoders m delta).2.2.state_ISR = m.state_ISR ∧
    (updateEncoders m delta).2.2 = m := by
  simp [updateEncoders, h]

theorem updateEncoders_zero_witness :
    ({ powerOn with state_ISR := 7 } : Machine).count_ISR = 0 ∧
    (updateEncoders { powerOn with state_ISR := 7 } 42).1 = false ∧
    (updateEncoders { powerOn with state_ISR := 7 } 42).2.1 = 0 ∧
    (updateEncoders { powerOn with state_ISR := 7 } 42).2.2.count_ISR = 0 ∧
    (updateEncoders { powerOn with state_ISR := 7 } 42).2.2.state_ISR = 7 ∧
    (updateEncoders { powerOn with state_ISR := 7 } 42).2.2 = { powerOn with state_ISR := 7 } :=
  ⟨by decide, updateEncoders_zero { powerOn with state_ISR := 7 } 42 (by decide)⟩

/-! ## One callback changes the accumulator by one step -/

theorem int8_of_range (z : Int) (h1 : -128 ≤ z) (h2 : z ≤ 127) : int8 z = z := by
  unfold int8
  omega

theorem int8_range (z : Int) : -128 ≤ int8 z ∧ int8 z ≤ 127 := by
  unfold int8
  omega

theorem readEncoder_step_cases (pins : Pins) (m : Machine) :
    (readEncoder pins m).1 = -1 ∨ (readEncoder pins m).1 = 0 ∨ (readEncoder pins m).1 = 1 := by
  rw [readEncoder_result]
  split_ifs <;> simp

/-- C7 (as stated, refuted): at an accumulator of 127, shift state 0000 and
pins A = 1, B = 0, `readEncoder` returns +1 and the handler leaves -128 in the
accumulator: the integer difference after − before is -255, which is none of
-1, 0, +1 and is not the step returned. -/
theorem isr_difference_at_top :
    (readEncoder ⟨true, false⟩ atTop).1 = 1 ∧
    atTop.count_ISR = 127 ∧
    (TIMER2_COMPA_vect ⟨true, false⟩ atTop).count_ISR = -128 ∧
    (TIMER2_COMPA_vect ⟨true, false⟩ atTop).count_ISR - atTop.count_ISR = -255 ∧
    ¬ ((TIMER2_COMPA_vect ⟨true, false⟩ atTop).count_ISR - atTop.count_ISR = -1 ∨
       (TIMER2_COMPA_vect ⟨true, false⟩ atTop).count_ISR - atTop.count_ISR = 0 ∨
       (TIMER2_COMPA_vect ⟨true, false⟩ atTop).count_ISR - atTop.count_ISR = 1) ∧
    (TIMER2_COMPA_vect ⟨true, false⟩ atTop).count_ISR - atTop.count_ISR
      ≠ (readEncoder ⟨true, false⟩ atTop).1 := by
  decide

/-- C7 (amended): for every shift state, all pin levels and every accumulator
value whose sum with the returned step stays within -128..127, one invocation
of the timer handler changes the accumulator by exactly the step `readEncoder`
returned, and that difference is -1, 0 or +1. -/
theorem isr_difference (pins : Pins) (m : Machine)
    (hlo : -128 ≤ m.count_ISR + (readEncoder pins m).1)
    (hhi : m.count_ISR + (readEncoder pins m).1 ≤ 127) :
    (TIMER2_COMPA_vect pins m).count_ISR - m.count_ISR = (readEncoder pins m).1 ∧
    ((TIMER2_COMPA_vect pins m).count_ISR - m.count_ISR = -1 ∨
     (TIMER2_COMPA_vect pins m).count_ISR - m.count_ISR = 0 ∨
     (TIMER2_COMPA_vect pins m).count_ISR - m.count_ISR = 1) := by
  have hd : (TIMER2_COMPA_vect pins m).count_ISR - m.count_ISR = (readEncoder pins m).1 := by
    rw [isr_count, int8_of_range _ hlo hhi]
    omega
  refine ⟨hd, ?_⟩
  rw [hd]
  exact readEncoder_step_cases pins m

theorem isr_difference_witness :
    (TIMER2_COMPA_vect ⟨false, true⟩ { powerOn with count_ISR := -127 }).count_ISR
        - ({ powerOn with count_ISR := -127 } : Machine).count_ISR
      = (readEncoder ⟨false, true⟩ { powerOn with count_ISR := -127 }).1 ∧
    ((TIMER2_COMPA_vect ⟨false, true⟩ { powerOn with count_ISR := -127 }).count_ISR
        - ({ powerOn with count_ISR := -127 } : Machine).count_ISR = -1 ∨
     (TIMER2_COMPA_vect ⟨false, true⟩ { powerOn with count_ISR := -127 }).count_ISR
        - ({ powerOn with count_ISR := -127 } : Machine).count_ISR = 0 ∨
     (TIMER2_COMPA_vect ⟨false, true⟩ { powerOn with count_ISR := -127 }).count_ISR
        - ({ powerOn with count_ISR := -127 } : Machine).count_ISR = 1) :=
  isr_difference ⟨false, true⟩ { powerOn with count_ISR := -127 } (by decide) (by decide)

/-! ## Stopping and starting the timer -/

theorem testBit_byte_one_shiftLeft (k : Nat) (h : k < 8) :
    (byte (1 <<< k)).testBit k = true := by
  interval_cases k <;> decide

theorem stopTimer2_disabled (io : Timer2Bits) (m : Machine) :
    timerEnabled io (stopTimer2 m) = false := by
  simp [timerEnabled, stopTimer2, interrupts, noInterrupts]

theorem startTimer2_enabled (io : Timer2Bits) (h : io.OCIE2A < 8) (m : Machine) :
    timerEnabled io (startTimer2 io m) = true ∧ (startTimer2 io m).SREG_I = true := by
  simp [timerEnabled, startTimer2, interrupts, noInterrupts, testBit_byte_one_shiftLeft _ h]

theorem tick_disabled (io : Timer2Bits) (pins : Pins) (m : Machine)
    (h : timerEnabled io m = false) : tick io pins m = m := by
  simp [tick, fires, h]

theorem tickMany_disabled (io : Timer2Bits) (ps : List Pins) (m : Machine)
    (h : timerEnabled io m = false) : tickMany io ps m = m := by
  induction ps with
  | nil => rfl
  | cons p ps ih => rw [tickMany, tick_disabled io p m h, ih]

theorem tick_enabled (io : Timer2Bits) (pins : Pins) (m : Machine)
    (h : timerEnabled io m = true) (hI : m.SREG_I = true) :
    tick io pins m = TIMER2_COMPA_vect pins m := by
  simp [tick, fires, h, hI]

/-- C8: the handler runs only while the compare-match enable (and the global
enable) is set. `stopTimer2` clears the enable and leaves `count_ISR` and
`state_ISR` unchanged; through every sequence of compare matches with any pin
levels after it the machine, and so the accumulator, does not change;
`startTimer2` then sets the enable without modifying `count_ISR` or
`state_ISR`, and the next compare match adds its step to the pre-stop
accumulator value. -/
theorem stop_start_preserves (io : Timer2Bits) (h : io.OCIE2A < 8) (m : Machine)
    (ps : List Pins) (p : Pins) :
    timerEnabled io (stopTimer2 m) = false ∧
    (stopTimer2 m).count_ISR = m.count_ISR ∧
    (stopTimer2 m).state_ISR = m.state_ISR ∧
    tickMany io ps (stopTimer2 m) = stopTimer2 m ∧
    (tickMany io ps (stopTimer2 m)).count_ISR = m.count_ISR ∧
    timerEnabled io (startTimer2 io (tickMany io ps (stopTimer2 m))) = true ∧
    (startTimer2 io (tickMany io ps (stopTimer2 m))).count_ISR = m.count_ISR ∧
    (startTimer2 io (tickMany io ps (stopTimer2 m))).state_ISR = m.state_ISR ∧
    (tick io p (startTimer2 io (tickMany io ps (stopTimer2 m)))).count_ISR
      = int8 (m.count_ISR + (readEncoder p m).1) := by
  have hstop := tickMany_disabled io ps (stopTimer2 m) (stopTimer2_disabled io m)
  have hen := startTimer2_enabled io h (stopTimer2 m)
  rw [hstop]
  refine ⟨stopTimer2_disabled io m, rfl, rfl, rfl, rfl, hen.1, rfl, rfl, ?_⟩
  rw [tick_enabled io p _ hen.1 hen.2, isr_count]
  rfl

theorem stop_start_preserves_witness :
    atmega328p.OCIE2A < 8 ∧
    timerEnabled atmega328p (stopTimer2 (startTimer2 atmega328p atTop)) = false ∧
    (tickMany atmega328p canonicalSeq (stopTimer2 (startTimer2 atmega328p atTop))).count_ISR
      = 127 ∧
    (tick atmega328p ⟨false, true⟩ (startTimer2 atmega328p
      (tickMany atmega328p canonicalSeq (stopTimer2 (startTimer2 atmega328p atTop))))).count_ISR
      = 126 := by
  have h := stop_start_preserves atmega328p (by decide) (startTimer2 atmega328p atTop)
    canonicalSeq ⟨false, true⟩
  exact ⟨by decide, h.1, h.2.2.2.2.1, by decide⟩

/-! ## Initialisation -/

theorem beginEncoder_eq (io : Timer2Bits) (pins : Pins) (m : Machine) :
    beginEncoder io pins m =
      startTimer2 io
        (readEncoder pins { m with modeA := .INPUT_PULLUP, modeB := .INPUT_PULLUP }).2 := by
  simp [beginEncoder, pinMode, ENCODER_A, ENCODER_B]

/-- C9: for every prior state and all pin levels, `beginEncoder` takes one
sample and drops its classification: the accumulator is unchanged, `state_ISR`
is `((old << 2) | (A << 1) | B) & 0xF`, both pins are pull-up inputs and the
timer interrupt is enabled; from a state with `state_ISR = 0` and
`count_ISR = 0` the result has `state_ISR = 2·A + B` and `count_ISR = 0`. -/
theorem beginEncoder_seeds (io : Timer2Bits) (h : io.OCIE2A < 8) (pins : Pins) (m : Machine) :
    (beginEncoder io pins m).count_ISR = m.count_ISR ∧
    (beginEncoder io pins m).state_ISR = history m.state_ISR pins.A pins.B ∧
    timerEnabled io (beginEncoder io pins m) = true ∧
    (beginEncoder io pins m).SREG_I = true ∧
    (beginEncoder io pins m).modeA = .INPUT_PULLUP ∧
    (beginEncoder io pins m).modeB = .INPUT_PULLUP ∧
    (beginEncoder io pins { m with state_ISR := 0, count_ISR := 0 }).state_ISR
      = 2 * (if pins.A then 1 else 0) + (if pins.B then 1 else 0) ∧
    (beginEncoder io pins { m with state_ISR := 0, count_ISR := 0 }).count_ISR = 0 := by
  have hen := fun x => startTimer2_enabled io h x
  have hst : ∀ x, (beginEncoder io pins x).state_ISR = history x.state_ISR pins.A pins.B := by
    intro x
    rw [beginEncoder_eq]
    exact readEncoder_state_eq_history pins _
  have hzero : history 0 pins.A pins.B
      = 2 * (if pins.A then 1 else 0) + (if pins.B then 1 else 0) := by
    rw [history_eq]
    omega
  refine ⟨?_, hst m, ?_, ?_, ?_, ?_, ?_, ?_⟩
  · rw [beginEncoder_eq]; rfl
  · rw [beginEncoder_eq]; exact (hen _).1
  · rw [beginEncoder_eq]; exact (hen _).2
  · rw [beginEncoder_eq]; rfl
  · rw [beginEncoder_eq]; rfl
  · rw [hst]; exact hzero
  · rw [beginEncoder_eq]; rfl

theorem beginEncoder_seeds_witness :
    atmega328p.OCIE2A < 8 ∧
    (readEncoder ⟨false, true⟩ { powerOn with modeA := .INPUT_PULLUP, modeB := .INPUT_PULLUP }).1
      = -1 ∧
    (beginEncoder atmega328p ⟨false, true⟩ powerOn).count_ISR = 0 ∧
    (beginEncoder atmega328p ⟨false, true⟩ powerOn).state_ISR = 1 ∧
    timerEnabled atmega328p (beginEncoder atmega328p ⟨false, true⟩ powerOn) = true := by
  have h := beginEncoder_seeds atmega328p (by decide) ⟨false, true⟩ powerOn
  exact ⟨by decide, by decide, h.1, by decide, h.2.2.1⟩

/-! ## The shift state stays below 16 -/

theorem readEncoder_state_lt (pins : Pins) (m : Machine) :
    (readEncoder pins m).2.state_ISR < 16 := by
  rw [readEncoder_state]
  have := sample_lt pins
  omega

theorem beginEncoder_state_lt (io : Timer2Bits) (pins : Pins) (m : Machine) :
    (beginEncoder io pins m).state_ISR < 16 := by
  rw [beginEncoder_eq]
  exact readEncoder_state_lt pins _

theorem updateEncoders_state (m : Machine) (delta : Int) :
    (updateEncoders m delta).2.2.state_ISR = m.state_ISR := by
  unfold updateEncoders
  split_ifs <;> rfl

theorem apply_state_lt (io : Timer2Bits) (op : Op) (m : Machine) (h : m.state_ISR < 16) :
    (op.apply io m).state_ISR < 16 := by
  cases op with
  | readEncoder pins => exact readEncoder_state_lt pins m
  | isr pins => exact readEncoder_state_lt pins m
  | beginEncoder pins => exact beginEncoder_state_lt io pins m
  | updateEncoders delta =>
    show (updateEncoders m delta).2.2.state_ISR < 16
    rw [updateEncoders_state]
    exact h
  | startTimer2 => exact h
  | stopTimer2 => exact h

theorem runOps_state_lt (io : Timer2Bits) (ops : List Op) (m : Machine)
    (h : m.state_ISR < 16) : (runOps io ops m).state_ISR < 16 := by
  induction ops generalizing m with
  | nil => exact h
  | cons op ops ih => exact ih _ (apply_state_lt io op m h)

/-- C10: `state_ISR < 16` holds in the initial state, holds after
`readEncoder`, the timer handler and `beginEncoder` whatever `state_ISR` was
before, is preserved by each operation of the module (`readEncoder`, the
handler, `beginEncoder`, `updateEncoders`, `startTimer2`, `stopTimer2`), and
so holds after every sequence of operations from the initial state. -/
theorem state_ISR_lt_16 (io : Timer2Bits) (m : Machine) :
    powerOn.state_ISR < 16 ∧
    (∀ pins, (readEncoder pins m).2.state_ISR < 16) ∧
    (∀ pins, (TIMER2_COMPA_vect pins m).state_ISR < 16) ∧
    (∀ pins, (beginEncoder io pins m).state_ISR < 16) ∧
    (∀ op : Op, m.state_ISR < 16 → (op.apply io m).state_ISR < 16) ∧
    (∀ ops : List Op, (runOps io ops powerOn).state_ISR < 16) :=
  ⟨by decide, fun pins => readEncoder_state_lt pins m, fun pins => readEncoder_state_lt pins m,
    fun pins => beginEncoder_state_lt io pins m, fun op h => apply_state_lt io op m h,
    fun ops => runOps_state_lt io ops powerOn (by decide)⟩

theorem state_ISR_lt_16_witness :
    (readEncoder ⟨true, true⟩ { powerOn with state_ISR := 255 }).2.state_ISR < 16 ∧
    ((Op.updateEncoders 0).apply atmega328p { powerOn with state_ISR := 15 }).state_ISR < 16 :=
  ⟨(state_ISR_lt_16 atmega328p { powerOn with state_ISR := 255 }).2.1 ⟨true, true⟩,
   (state_ISR_lt_16 atmega328p { powerOn with state_ISR := 15 }).2.2.2.2.1
     (Op.updateEncoders 0) (by decide)⟩

/-! ## No step is lost or counted twice -/

theorem updateEncoders_delta (m : Machine) (delta : Int) :
    (updateEncoders m delta).2.1 = m.count_ISR := by
  unfold updateEncoders
  split_ifs with h
  · rfl
  · simp only [ne_eq, not_not] at h
    exact h.symm

theorem updateEncoders_count (m : Machine) (delta : Int) :
    (updateEncoders m delta).2.2.count_ISR = 0 := by
  unfold updateEncoders
  split_ifs with h
  · rfl
  · simp only [ne_eq, not_not] at h
    exact h

theorem observe_conserves (es : List Event) (m : Machine) (delta : Int)
    (hr : staysInRange es m delta = true) :
    drainedOf (observe es m delta).1 = sumsBetweenDrains (observe es m delta).1 m.count_ISR ∧
    (drainedOf (observe es m delta).1).sum + (observe es m delta).2.count_ISR
      = m.count_ISR + (stepsOf (observe es m delta).1).sum := by
  induction es generalizing m delta with
  | nil => simp [observe, drainedOf, stepsOf, sumsBetweenDrains]
  | cons e es ih =>
    cases e with
    | callback pins =>
      simp only [staysInRange, Bool.and_eq_true, decide_eq_true_eq] at hr
      obtain ⟨⟨hlo, hhi⟩, hrest⟩ := hr
      have hc : (TIMER2_COMPA_vect pins m).count_ISR = m.count_ISR + (readEncoder pins m).1 := by
        rw [isr_count, int8_of_range _ hlo hhi]
      obtain ⟨ih1, ih2⟩ := ih (TIMER2_COMPA_vect pins m) delta hrest
      simp only [observe, drainedOf, stepsOf, sumsBetweenDrains, List.sum_cons]
      rw [hc] at ih1 ih2
      exact ⟨ih1, by omega⟩
    | drain =>
      simp only [staysInRange] at hr
      obtain ⟨ih1, ih2⟩ := ih _ _ hr
      simp only [observe, drainedOf, stepsOf, sumsBetweenDrains, List.sum_cons]
      rw [updateEncoders_count] at ih1 ih2
      rw [updateEncoders_delta] at ih1 ih2 ⊢
      exact ⟨by rw [ih1], by omega⟩

/-- C5: for every finite sequence of timer callbacks (with any pin levels) and
`updateEncoders` calls run one after another from an accumulator of 0, in
which no callback takes the accumulator out of -128..127: each call of
`updateEncoders` writes into `*delta` exactly the sum of the steps
`readEncoder` returned in the callbacks since the previous call, and the sum
of all drained deltas plus the accumulator left at the end equals the sum of
all steps returned. -/
theorem drains_deliver_every_step (es : List Event) (m : Machine) (delta : Int)
    (h0 : m.count_ISR = 0) (hr : staysInRange es m delta = true) :
    drainedOf (observe es m delta).1 = sumsBetweenDrains (observe es m delta).1 0 ∧
    (drainedOf (observe es m delta).1).sum + (observe es m delta).2.count_ISR
      = (stepsOf (observe es m delta).1).sum := by
  have h := observe_conserves es m delta hr
  rw [h0] at h
  exact ⟨h.1, by omega⟩

theorem drains_deliver_every_step_witness :
    powerOn.count_ISR = 0 ∧
    staysInRange [.callback ⟨true, false⟩, .callback ⟨false, false⟩, .drain,
      .callback ⟨false, true⟩, .drain, .drain, .callback ⟨false, false⟩,
      .callback ⟨false, true⟩] powerOn 9 = true ∧
    drainedOf (observe [.callback ⟨true, false⟩, .callback ⟨false, false⟩, .drain,
      .callback ⟨false, true⟩, .drain, .drain, .callback ⟨false, false⟩,
      .callback ⟨false, true⟩] powerOn 9).1 = [1, -1, 0] ∧
    (drainedOf (observe [.callback ⟨true, false⟩, .callback ⟨false, false⟩, .drain,
      .callback ⟨false, true⟩, .drain, .drain, .callback ⟨false, false⟩,
      .callback ⟨false, true⟩] powerOn 9).1).sum
      + (observe [.callback ⟨true, false⟩, .callback ⟨false, false⟩, .drain,
      .callback ⟨false, true⟩, .drain, .drain, .callback ⟨false, false⟩,
      .callback ⟨false, true⟩] powerOn 9).2.count_ISR
      = (stepsOf (observe [.callback ⟨true, false⟩, .callback ⟨false, false⟩, .drain,
      .callback ⟨false, true⟩, .drain, .drain, .callback ⟨false, false⟩,
      .callback ⟨false, true⟩] powerOn 9).1).sum :=
  ⟨by decide, by decide, by decide,
    (drains_deliver_every_step _ powerOn 9 (by decide) (by decide)).2⟩

/-! ## Interleavings -/

theorem hostStep_preserves (s : Sys) (hinv : pcInv s) :
    pcInv (hostStep s).1 ∧
    ((hostStep s).2.getD 0) + outstanding (hostStep s).1 = outstanding s := by
  obtain ⟨m, pc, delta⟩ := s
  cases pc with
  | idle => simp [hostStep, pcInv, outstanding]
  | tested nz =>
    cases nz <;> simp [hostStep, pcInv, outstanding, noInterrupts]
  | masked =>
    simp only [pcInv] at hinv
    simp [hostStep, pcInv, outstanding, hinv]
  | copied =>
    simp only [pcInv] at hinv
    simp [hostStep, pcInv, outstanding, hinv.1, hinv.2]
  | cleared =>
    simp only [pcInv] at hinv
    simp [hostStep, pcInv, outstanding, interrupts]

theorem fires_pc (io : Timer2Bits) (s : Sys) (hinv : pcInv s) (hf : fires io s.m = true) :
    outstanding s = s.m.count_ISR ∧ ∀ m, pcInv { s with m := m } := by
  obtain ⟨m, pc, delta⟩ := s
  have hI : m.SREG_I = true := by
    simp only [fires, Bool.and_eq_true] at hf
    exact hf.1
  cases pc with
  | idle => exact ⟨rfl, fun _ => trivial⟩
  | tested nz => exact ⟨rfl, fun _ => trivial⟩
  | masked =>
    simp only [pcInv] at hinv
    rw [hinv] at hI
    exact absurd hI (by decide)
  | copied =>
    simp only [pcInv] at hinv
    rw [hinv.1] at hI
    exact absurd hI (by decide)
  | cleared =>
    simp only [pcInv] at hinv
    rw [hinv.1] at hI
    exact absurd hI (by decide)

theorem interleave_conserves (io : Timer2Bits) (acts : List Act) (s : Sys)
    (hinv : pcInv s) (hr : scheduleInRange io acts s = true) :
    (drainedOf (interleave io acts s).1).sum + outstanding (interleave io acts s).2
      = outstanding s + (stepsOf (interleave io acts s).1).sum := by
  induction acts generalizing s with
  | nil => simp [interleave, drainedOf, stepsOf]
  | cons a acts ih =>
    cases a with
    | irq pins =>
      by_cases hf : fires io s.m = true
      · simp only [scheduleInRange, hf, if_true, Bool.and_eq_true, decide_eq_true_eq] at hr
        obtain ⟨⟨hlo, hhi⟩, hrest⟩ := hr
        obtain ⟨hout, hinv'⟩ := fires_pc io s hinv hf
        have h := ih { s with m := TIMER2_COMPA_vect pins s.m } (hinv' _) hrest
        have hout' : outstanding { s with m := TIMER2_COMPA_vect pins s.m }
            = s.m.count_ISR + (readEncoder pins s.m).1 := by
          rw [(fires_pc io { s with m := TIMER2_COMPA_vect pins s.m } (hinv' _)
            (by
              have : fires io (TIMER2_COMPA_vect pins s.m) = fires io s.m := rfl
              rw [this]; exact hf)).1]
          show (TIMER2_COMPA_vect pins s.m).count_ISR = _
          rw [isr_count, int8_of_range _ hlo hhi]
        simp only [interleave, hf, if_true, drainedOf, stepsOf, List.sum_cons]
        rw [hout'] at h
        rw [hout]
        omega
      · simp only [scheduleInRange, hf] at hr
        simp only [interleave, hf]
        exact ih s hinv hr
    | host =>
      simp only [scheduleInRange] at hr
      obtain ⟨hinv', hout⟩ := hostStep_preserves s hinv
      have h := ih (hostStep s).1 hinv' hr
      simp only [interleave]
      cases hd : (hostStep s).2 with
      | none =>
        rw [hd] at hout
        simp only [Option.getD_none] at hout
        simp only []
        omega
      | some d =>
        rw [hd] at hout
        simp only [Option.getD_some] at hout
        simp only [drainedOf, stepsOf, List.sum_cons]
        omega

theorem sum_eq_count_one (l : List Int) (h : ∀ x ∈ l, x = 1 ∨ x = 0) :
    l.sum = (l.count 1 : Nat) := by
  induction l with
  | nil => simp
  | cons a l ih =>
    have ha := h a (List.mem_cons_self a l)
    have hl := ih (fun x hx => h x (List.mem_cons_of_mem a hx))
    rcases ha with ha | ha
    · subst ha
      rw [List.sum_cons, List.count_cons_self, hl]
      push_cast
      omega
    · subst ha
      rw [List.sum_cons, List.count_cons_of_ne (by decide), hl]
      omega

/-- The statements of `updateEncoders`, run without a compare match in
between, do what the function does: five statements when the accumulator is
nonzero, two when it is zero. -/
theorem host_statements_eq_updateEncoders (io : Timer2Bits) (m : Machine) (delta : Int) :
    interleave io (List.replicate (if m.count_ISR ≠ 0 then 5 else 2) Act.host)
        ⟨m, .idle, delta⟩
      = ([.drained (updateEncoders m delta).2.1],
          ⟨(updateEncoders m delta).2.2, .idle, (updateEncoders m delta).2.1⟩) := by
  by_cases h : m.count_ISR = 0
  · simp [h, interleave, hostStep, updateEncoders, List.replicate]
  · simp [h, interleave, hostStep, updateEncoders, List.replicate, interrupts, noInterrupts]

/-- C6: the handler may be served between any two statements of
`updateEncoders` at which interrupts are enabled, in particular between the
test `count_ISR != 0` and `noInterrupts()`. For every schedule of compare
matches and host statements that starts and ends outside `updateEncoders`
with the accumulator initially 0 and never taken out of -128..127, followed by
one final `updateEncoders` call: the sum of all drained deltas equals the sum
of the steps of the handler runs, so when every run added +1 or 0 it equals
the number N of runs that added +1. -/
theorem interleaved_drains_sum (io : Timer2Bits) (acts : List Act) (s : Sys)
    (hpc : s.pc = .idle) (h0 : s.m.count_ISR = 0)
    (hr : scheduleInRange io acts s = true)
    (hend : (interleave io acts s).2.pc = .idle) :
    (drainedOf (interleave io acts s).1).sum
        + (updateEncoders (interleave io acts s).2.m (interleave io acts s).2.delta).2.1
      = (stepsOf (interleave io acts s).1).sum ∧
    (updateEncoders (interleave io acts s).2.m
      (interleave io acts s).2.delta).2.2.count_ISR = 0 ∧
    ((∀ x ∈ stepsOf (interleave io acts s).1, x = 1 ∨ x = 0) →
      (drainedOf (interleave io acts s).1).sum
          + (updateEncoders (interleave io acts s).2.m (interleave io acts s).2.delta).2.1
        = ((stepsOf (interleave io acts s).1).count 1 : Nat)) := by
  have hinv : pcInv s := by
    simp only [pcInv, hpc]
  have h := interleave_conserves io acts s hinv hr
  have hs : outstanding s = 0 := by
    simp only [outstanding, hpc, h0]
  have he : outstanding (interleave io acts s).2 = (interleave io acts s).2.m.count_ISR := by
    simp only [outstanding, hend]
  rw [hs, he] at h
  have hsum : (drainedOf (interleave io acts s).1).sum
      + (updateEncoders (interleave io acts s).2.m (interleave io acts s).2.delta).2.1
      = (stepsOf (interleave io acts s).1).sum := by
    rw [updateEncoders_delta]
    omega
  refine ⟨hsum, updateEncoders_count _ _, fun hall => ?_⟩
  rw [hsum]
  exact sum_eq_count_one _ hall

theorem interleaved_drains_sum_witness :
    startedSys.pc = .idle ∧ startedSys.m.count_ISR = 0 ∧
    scheduleInRange atmega328p preemptingSchedule startedSys = true ∧
    (interleave atmega328p preemptingSchedule startedSys).2.pc = .idle ∧
    (interleave atmega328p preemptingSchedule startedSys).1
      = [.step 1, .step 0, .step 1, .drained 2, .step 0, .step 1, .drained 0] ∧
    (updateEncoders (interleave atmega328p preemptingSchedule startedSys).2.m
      (interleave atmega328p preemptingSchedule startedSys).2.delta).2.1 = 1 ∧
    (drainedOf (interleave atmega328p preemptingSchedule startedSys).1).sum
        + (updateEncoders (interleave atmega328p preemptingSchedule startedSys).2.m
            (interleave atmega328p preemptingSchedule startedSys).2.delta).2.1
      = ((stepsOf (interleave atmega328p preemptingSchedule startedSys).1).count 1 : Nat) ∧
    (stepsOf (interleave atmega328p preemptingSchedule startedSys).1).count 1 = 3 :=
  ⟨by decide, by decide, by decide, by decide, by decide, by decide,
    (interleaved_drains_sum atmega328p preemptingSchedule startedSys (by decide) (by decide)
      (by decide) (by decide)).2.2 (by decide),
    by decide⟩

/-! ## The two samples held in the shift state -/

/-- C11: for every prior shift state `s` and all pin levels, after
`readEncoder` the high 2 bits of `state_ISR` are the low 2 bits of `s` (the
previous sample) and the low 2 bits are `2·A + B` (the current sample); so the
new state and the returned step are those obtained from `s % 4`, and two
prior states with the same low 2 bits give the same new state and step. -/
theorem readEncoder_two_samples (pins : Pins) (m : Machine) :
    (readEncoder pins m).2.state_ISR / 4 = m.state_ISR % 4 ∧
    (readEncoder pins m).2.state_ISR >>> 2 = m.state_ISR &&& 3 ∧
    (readEncoder pins m).2.state_ISR % 4
      = 2 * (if pins.A then 1 else 0) + (if pins.B then 1 else 0) ∧
    (readEncoder pins m).2.state_ISR &&& 3
      = 2 * (if pins.A then 1 else 0) + (if pins.B then 1 else 0) ∧
    (readEncoder pins { m with state_ISR := m.state_ISR % 4 }).2.state_ISR
      = (readEncoder pins m).2.state_ISR ∧
    (readEncoder pins { m with state_ISR := m.state_ISR % 4 }).1 = (readEncoder pins m).1 ∧
    (∀ m2 : Machine, m2.state_ISR % 4 = m.state_ISR % 4 →
      (readEncoder pins m2).2.state_ISR = (readEncoder pins m).2.state_ISR ∧
      (readEncoder pins m2).1 = (readEncoder pins m).1) := by
  have hs := readEncoder_state pins m
  have hlt := sample_lt pins
  have hsample : sample pins
      = 2 * (if pins.A then 1 else 0) + (if pins.B then 1 else 0) := rfl
  have hand : ∀ x : Nat, x &&& 3 = x % 4 := fun x => by
    simpa using Nat.and_pow_two_sub_one_eq_mod x 2
  have hdep : ∀ m2 : Machine, m2.state_ISR % 4 = m.state_ISR % 4 →
      (readEncoder pins m2).2.state_ISR = (readEncoder pins m).2.state_ISR ∧
      (readEncoder pins m2).1 = (readEncoder pins m).1 := by
    intro m2 h2
    have hst : (readEncoder pins m2).2.state_ISR = (readEncoder pins m).2.state_ISR := by
      rw [readEncoder_state, readEncoder_state, h2]
    refine ⟨hst, ?_⟩
    rw [readEncoder_result, readEncoder_result pins m, hst]
  have hmod := hdep { m with state_ISR := m.state_ISR % 4 } (Nat.mod_mod _ _)
  refine ⟨?_, ?_, ?_, ?_, hmod.1, hmod.2, hdep⟩
  · rw [hs]; omega
  · rw [Nat.shiftRight_eq_div_pow, hand, hs]
    have : (2 : Nat) ^ 2 = 4 := by decide
    rw [this]
    omega
  · rw [hs, ← hsample]; omega
  · rw [hand, hs, ← hsample]; omega

theorem readEncoder_two_samples_witness :
    ({ powerOn with state_ISR := 0xF4 } : Machine).state_ISR % 4
      = ({ powerOn with state_ISR := 8 } : Machine).state_ISR % 4 ∧
    (readEncoder ⟨true, false⟩ { powerOn with state_ISR := 0xF4 }).2.state_ISR
      = (readEncoder ⟨true, false⟩ { powerOn with state_ISR := 8 }).2.state_ISR ∧
    (readEncoder ⟨true, false⟩ { powerOn with state_ISR := 0xF4 }).1
      = (readEncoder ⟨true, false⟩ { powerOn with state_ISR := 8 }).1 ∧
    (readEncoder ⟨true, false⟩ { powerOn with state_ISR := 8 }).1 = 1 :=
  ⟨by decide,
    ((readEncoder_two_samples ⟨true, false⟩ { powerOn with state_ISR := 8 }).2.2.2.2.2.2
      { powerOn with state_ISR := 0xF4 } (by decide)).1,
    ((readEncoder_two_samples ⟨true, false⟩ { powerOn with state_ISR := 8 }).2.2.2.2.2.2
      { powerOn with state_ISR := 0xF4 } (by decide)).2,
    by decide⟩

/-! ## Which ticks step -/

theorem readEncoder_low (pins : Pins) (m : Machine) :
    (readEncoder pins m).2.state_ISR % 4 = sample pins := by
  rw [readEncoder_state]
  have := sample_lt pins
  omega

theorem readEncoder_step_eq (pins : Pins) (m : Machine) :
    (readEncoder pins m).1 =
      if m.state_ISR % 4 = 0 ∧ sample pins = 1 then -1
      else if m.state_ISR % 4 = 0 ∧ sample pins = 2 then 1 else 0 := by
  rw [readEncoder_result, readEncoder_state]
  have := sample_lt pins
  have h1 : (m.state_ISR % 4 * 4 + sample pins = 1) ↔
      (m.state_ISR % 4 = 0 ∧ sample pins = 1) := by omega
  have h2 : (m.state_ISR % 4 * 4 + sample pins = 2) ↔
      (m.state_ISR % 4 = 0 ∧ sample pins = 2) := by omega
  simp only [h1, h2]

theorem readMany_cons (p : Pins) (ps : List Pins) (m : Machine) :
    (readMany (p :: ps) m).1 = (readEncoder p m).1 :: (readMany ps (readEncoder p m).2).1 :=
  rfl

/-- C13: for every seed (the low 2 bits of the prior shift state) and every
finite sequence of pin-pair samples fed to `readEncoder` tick by tick, the sum
of the returned steps is the number of ticks with previous sample 00 and
current sample 10 minus the number of ticks with previous sample 00 and
current sample 01; the jitter 00→01→00→01 returns -1, 0, -1 and sums to -2. -/
theorem steps_sum_counts (ps : List Pins) (m : Machine) :
    (readMany ps m).1.sum
      = (countFrom00 2 (m.state_ISR % 4) ps : Int) - (countFrom00 1 (m.state_ISR % 4) ps : Int) ∧
    (readMany jitterSeq { m with state_ISR := 0 }).1 = [-1, 0, -1] ∧
    (readMany jitterSeq { m with state_ISR := 0 }).1.sum = -2 := by
  refine ⟨?_, ?_, ?_⟩
  · induction ps generalizing m with
    | nil => simp [readMany, countFrom00]
    | cons p ps ih =>
      rw [readMany_cons, List.sum_cons, ih, readEncoder_low, readEncoder_step_eq]
      simp only [countFrom00]
      have := sample_lt p
      split_ifs <;> push_cast <;> omega
  · simp [readMany, jitterSeq, readEncoder_step_eq, readEncoder_low, readEncoder_state, sample]
  · simp [readMany, jitterSeq, readEncoder_step_eq, readEncoder_low, readEncoder_state, sample]

/-! ## No two consecutive steps -/

theorem step_nonzero_low (pins : Pins) (m : Machine) (h : (readEncoder pins m).1 ≠ 0) :
    (readEncoder pins m).2.state_ISR % 4 ≠ 0 := by
  rw [readEncoder_low]
  rw [readEncoder_step_eq] at h
  split_ifs at h with h1 h2
  · omega
  · omega
  · exact absurd rfl h

theorem step_zero_of_low (pins : Pins) (m : Machine) (h : m.state_ISR % 4 ≠ 0) :
    (readEncoder pins m).1 = 0 := by
  rw [readEncoder_step_eq]
  split_ifs with h1 h2
  · exact absurd h1.1 h
  · exact absurd h2.1 h
  · rfl

theorem readMany_length (ps : List Pins) (m : Machine) :
    (readMany ps m).1.length = ps.length := by
  induction ps generalizing m with
  | nil => rfl
  | cons p ps ih => rw [readMany_cons, List.length_cons, ih, List.length_cons]

theorem steps_sum_bound (ps : List Pins) (m : Machine) :
    (readMany ps m).1.sum.natAbs ≤ (ps.length + 1) / 2 ∧
    (m.state_ISR % 4 ≠ 0 → (readMany ps m).1.sum.natAbs ≤ ps.length / 2) := by
  induction ps generalizing m with
  | nil => simp [readMany]
  | cons p ps ih =>
    obtain ⟨ih1, ih2⟩ := ih (readEncoder p m).2
    rw [readMany_cons, List.sum_cons, List.length_cons]
    have hcases := readEncoder_step_cases p m
    constructor
    · by_cases hz : (readEncoder p m).1 = 0
      · rw [hz]
        omega
      · have ih2' := ih2 (step_nonzero_low p m hz)
        omega
    · intro hlow
      rw [step_zero_of_low p m hlow]
      omega

/-- C14: for every prior state and all pin levels, two consecutive invocations
of `readEncoder` never both return a nonzero step (after a -1 or +1 the next
invocation returns 0 whatever the pins read), and over any `n` consecutive
ticks the absolute value of the sum of the steps is at most `⌈n/2⌉`. -/
theorem no_consecutive_steps (p q : Pins) (ps : List Pins) (m : Machine) :
    ¬ ((readEncoder p m).1 ≠ 0 ∧ (readEncoder q (readEncoder p m).2).1 ≠ 0) ∧
    (((readEncoder p m).1 = -1 ∨ (readEncoder p m).1 = 1) →
      (readEncoder q (readEncoder p m).2).1 = 0) ∧
    (readMany ps m).1.length = ps.length ∧
    (readMany ps m).1.sum.natAbs ≤ (ps.length + 1) / 2 := by
  have hnext : (readEncoder p m).1 ≠ 0 → (readEncoder q (readEncoder p m).2).1 = 0 :=
    fun h => step_zero_of_low q _ (step_nonzero_low p m h)
  refine ⟨fun h => h.2 (hnext h.1), fun h => hnext ?_, readMany_length ps m,
    (steps_sum_bound ps m).1⟩
  rcases h with h | h <;> rw [h] <;> decide

theorem no_consecutive_steps_witness :
    (readEncoder ⟨true, false⟩ powerOn).1 = 1 ∧
    (readEncoder ⟨false, false⟩ (readEncoder ⟨true, false⟩ powerOn).2).1 = 0 ∧
    (readMany [⟨true, false⟩, ⟨false, false⟩, ⟨true, false⟩] powerOn).1 = [1, 0, 1] ∧
    (readMany [⟨true, false⟩, ⟨false, false⟩, ⟨true, false⟩] powerOn).1.sum.natAbs
      ≤ (3 + 1) / 2 :=
  ⟨by decide,
    (no_consecutive_steps ⟨true, false⟩ ⟨false, false⟩
      [⟨true, false⟩, ⟨false, false⟩, ⟨true, false⟩] powerOn).2.1 (Or.inr (by decide)),
    by decide,
    (no_consecutive_steps ⟨true, false⟩ ⟨false, false⟩
      [⟨true, false⟩, ⟨false, false⟩, ⟨true, false⟩] powerOn).2.2.2⟩

/-! ## The accumulator wraps -/

theorem int8_emod (z : Int) : int8 z % 256 = z % 256 := by
  unfold int8
  omega

theorem observe_congruent (es : List Event) (m : Machine) (delta acc : Int)
    (h : m.count_ISR % 256 = acc % 256) :
    List.Forall₂ (fun d t : Int => d % 256 = t % 256)
      (drainedOf (observe es m delta).1) (sumsBetweenDrains (observe es m delta).1 acc) := by
  induction es generalizing m delta acc with
  | nil => exact List.Forall₂.nil
  | cons e es ih =>
    cases e with
    | callback pins =>
      simp only [observe, drainedOf, sumsBetweenDrains]
      apply ih
      rw [isr_count, int8_emod]
      omega
    | drain =>
      simp only [observe, drainedOf, sumsBetweenDrains]
      refine List.Forall₂.cons ?_ (ih _ _ 0 ?_)
      · rw [updateEncoders_delta]
        exact h
      · rw [updateEncoders_count]

theorem int8_int8_add (z k : Int) : int8 (int8 z + k) = int8 (z + k) := by
  unfold int8
  omega

theorem ticks_turns (n : Nat) (m : Machine) (h : m.state_ISR % 4 = 0)
    (hlo : -128 ≤ m.count_ISR) (hhi : m.count_ISR ≤ 127) :
    (ticks (turns n) m).count_ISR = int8 (m.count_ISR + n) ∧
    (readMany (turns n) m).1.sum = n := by
  induction n generalizing m with
  | zero =>
    simp only [turns, ticks, readMany, List.sum_nil, Nat.cast_zero, add_zero]
    exact ⟨(int8_of_range _ hlo hhi).symm, trivial⟩
  | succ n ih =>
    have hs1 : (readEncoder ⟨true, false⟩ m).1 = 1 := by
      rw [readEncoder_step_eq]
      simp [h, sample]
    have hl1 : (readEncoder ⟨true, false⟩ m).2.state_ISR % 4 ≠ 0 := by
      rw [readEncoder_low]
      simp [sample]
    have hl2 : ∀ x : Machine, (readEncoder ⟨false, false⟩ x).2.state_ISR % 4 = 0 := by
      intro x
      rw [readEncoder_low]
      simp [sample]
    constructor
    · have hs2 : (readEncoder ⟨false, false⟩ (TIMER2_COMPA_vect ⟨true, false⟩ m)).1 = 0 :=
        step_zero_of_low _ _ hl1
      have hr := int8_range ((TIMER2_COMPA_vect ⟨true, false⟩ m).count_ISR
        + (readEncoder ⟨false, false⟩ (TIMER2_COMPA_vect ⟨true, false⟩ m)).1)
      have hi := (ih (TIMER2_COMPA_vect ⟨false, false⟩ (TIMER2_COMPA_vect ⟨true, false⟩ m))
        (hl2 _) hr.1 hr.2).1
      show (ticks (turns n)
        (TIMER2_COMPA_vect ⟨false, false⟩ (TIMER2_COMPA_vect ⟨true, false⟩ m))).count_ISR = _
      rw [hi, isr_count, hs2, isr_count, hs1, add_zero, int8_int8_add, int8_int8_add]
      congr 1
      push_cast
      omega
    · have hs2 : (readEncoder ⟨false, false⟩ (readEncoder ⟨true, false⟩ m).2).1 = 0 :=
        step_zero_of_low _ _ hl1
      have hi := (ih (readEncoder ⟨false, false⟩ (readEncoder ⟨true, false⟩ m).2).2
        (hl2 _) hlo hhi).2
      show ((readEncoder ⟨true, false⟩ m).1 ::
        (readEncoder ⟨false, false⟩ (readEncoder ⟨true, false⟩ m).2).1 ::
        (readMany (turns n)
          (readEncoder ⟨false, false⟩ (readEncoder ⟨true, false⟩ m).2).2).1).sum = _
      rw [List.sum_cons, List.sum_cons, hi, hs1, hs2]
      push_cast
      omega

/-- C15: the accumulator wraps as a signed 8-bit integer and does not
saturate. After a timer callback `count_ISR` is `old + step` reduced modulo
`2^8` into -128..127: it lies in that range and is congruent to `old + step`
modulo 256; a +1 at 127 leaves -128 and a -1 at -128 leaves 127. In every
sequence of callbacks and drains from an accumulator of 0, with no bound on
the steps between drains, each drained value is congruent modulo 256 to the
sum of the steps since the previous drain; after 128 steps of +1 the drain
returns -128. -/
theorem accumulator_wraps (pins : Pins) (m : Machine) (es : List Event) (delta : Int) :
    (TIMER2_COMPA_vect pins m).count_ISR
      = (m.count_ISR + (readEncoder pins m).1 + 128) % 256 - 128 ∧
    -128 ≤ (TIMER2_COMPA_vect pins m).count_ISR ∧
    (TIMER2_COMPA_vect pins m).count_ISR ≤ 127 ∧
    (TIMER2_COMPA_vect pins m).count_ISR % 256
      = (m.count_ISR + (readEncoder pins m).1) % 256 ∧
    ((readEncoder ⟨true, false⟩ atTop).1 = 1 ∧
      (TIMER2_COMPA_vect ⟨true, false⟩ atTop).count_ISR = -128) ∧
    ((readEncoder ⟨false, true⟩ atBottom).1 = -1 ∧
      (TIMER2_COMPA_vect ⟨false, true⟩ atBottom).count_ISR = 127) ∧
    List.Forall₂ (fun d t : Int => d % 256 = t % 256)
      (drainedOf (observe es { m with count_ISR := 0 } delta).1)
      (sumsBetweenDrains (observe es { m with count_ISR := 0 } delta).1 0) ∧
    ((readMany (turns 128) powerOn).1.sum = 128 ∧
      (updateEncoders (ticks (turns 128) powerOn) delta).2.1 = -128) := by
  have hr := int8_range (m.count_ISR + (readEncoder pins m).1)
  have ht := ticks_turns 128 powerOn (by decide) (by decide) (by decide)
  refine ⟨rfl, ?_, ?_, ?_, by decide, by decide, observe_congruent es _ delta 0 rfl, ?_, ?_⟩
  · rw [isr_count]; exact hr.1
  · rw [isr_count]; exact hr.2
  · rw [isr_count, int8_emod]
  · exact ht.2
  · rw [updateEncoders_delta, ht.1]
    decide

/-! ## The tick rate -/

/-- C12 (as stated, refuted): with the rate `16000000 / (128 × (OCR2A + 1))`
the presets 63, 31, 15 and 7 do not give exactly the documented 2000, 4000,
8000 and 16000 ticks per second. -/
theorem presets_not_exact :
    ticksPerSecond 63 ≠ 2000 ∧ ticksPerSecond 31 ≠ 4000 ∧
    ticksPerSecond 15 ≠ 8000 ∧ ticksPerSecond 7 ≠ 16000 := by
  refine ⟨?_, ?_, ?_, ?_⟩ <;> norm_num [ticksPerSecond]

/-- C12 (amended): `startTimer2` writes 124 to `OCR2A` and, on the
ATmega328P, the clock-select bits `101` to `TCCR2B`; with the rate
`16000000 / (128 × (OCR2A + 1))` the configured value gives exactly 1000 ticks
per second and the preset 249 exactly 500, while the presets 63, 31, 15 and 7
give 1953.125, 3906.25, 7812.5 and 15625. -/
theorem timer_rates (io : Timer2Bits) (m : Machine) :
    (startTimer2 io m).OCR2A = 124 ∧
    (startTimer2 atmega328p m).TCCR2B &&& 7 = 5 ∧
    ticksPerSecond (startTimer2 io m).OCR2A = 1000 ∧
    ticksPerSecond 249 = 500 ∧
    ticksPerSecond 124 = 1000 ∧
    ticksPerSecond 63 = 15625 / 8 ∧
    ticksPerSecond 31 = 15625 / 4 ∧
    ticksPerSecond 15 = 15625 / 2 ∧
    ticksPerSecond 7 = 15625 := by
  have h : (startTimer2 io m).OCR2A = 124 := rfl
  have hcs : (startTimer2 atmega328p m).TCCR2B = 13 := rfl
  refine ⟨h, by rw [hcs]; decide, ?_, ?_, ?_, ?_, ?_, ?_, ?_⟩
  · rw [h]; norm_num [ticksPerSecond]
  all_goals norm_num [ticksPerSecond]

end Encoder
